import Mathlib

/-!
Verification development for the chessbench live-match UI core.

The definitions below are shallow embeddings of the TypeScript source:
  - src/ui/src/App.tsx   (parseFen, parsePgnMoves, session state machine)
  - src/ui/src/api.ts    (mock module: applyUciMove, boardToPlacement, createMockStream)
  - the SSE stream client (createMatchStream / parseEvent)

JavaScript strings are modeled as List Char / String, JS numbers the
clock arithmetic touches as Int, array mutation as functional update.
Host built-ins (JSON.parse, window.setInterval, EventSource dispatch)
are modeled at the call boundary as explained at each definition.
-/

/-- Model of the JS single-character split `s.split(sep)`: splits a char
list at every occurrence of the separator, keeping empty segments, and
returns at least one segment (JS split of the empty string is one empty
segment). -/
def splitOnChar (sep : Char) (l : List Char) : List (List Char) :=
  l.splitOn sep

/-- Test of `App.tsx parseFen`: the JS condition `char >= '1' && char <= '8'`. -/
def isDigit18 (c : Char) : Bool := decide ('1' ≤ c ∧ c ≤ '8')

/-- One character of a placement rank in `App.tsx parseFen`: a digit 1-8
pushes that many `null` squares (JS `Number(char)` run length), any other
character is pushed as a piece code. -/
def expandChar (c : Char) : List (Option Char) :=
  if isDigit18 c then List.replicate (c.toNat - '0'.toNat) none else [some c]

/-- Inner loop of `App.tsx parseFen` over one rank: the JS `for (const char
of rank)` accumulating `row.push(...)`. -/
def parseRankChars (rank : List Char) : List (Option Char) :=
  rank.foldl (fun row c => row ++ expandChar c) []

/-- First field extraction plus rank split of `App.tsx parseFen`:
`const [placement] = fen.split(' ')` then `placement.split('/')`. -/
def ranksOf (fen : String) : List (List Char) :=
  splitOnChar '/' ((splitOnChar ' ' fen.data).headD [])

/-- Embedding of `App.tsx parseFen`: split off the placement field, split
it into ranks, expand each rank. Note the source performs no validation
and can never fail. -/
def parseFen (fen : String) : List (List (Option Char)) :=
  (ranksOf fen).map parseRankChars

/-- Number of board squares a placement character denotes: its run length
for a digit 1-8, one square otherwise. -/
def charWidth (c : Char) : Nat := if isDigit18 c then c.toNat - '0'.toNat else 1

/-- Sum of square counts of a rank text. -/
def rankWidth (l : List Char) : Nat := (l.map charWidth).sum

/-- The piece letters the renderer recognizes (keys of `pieceSrc` in App.tsx). -/
def pieceLetters : List Char := ['p', 'n', 'b', 'r', 'q', 'k', 'P', 'N', 'B', 'R', 'Q', 'K']

/-- A rank text is valid when it sums to exactly 8 squares and every
character is a digit 1-8 or a recognized piece letter. -/
def ValidRank (l : List Char) : Prop :=
  rankWidth l = 8 ∧ ∀ c ∈ l, isDigit18 c = true ∨ c ∈ pieceLetters

instance (l : List Char) : Decidable (ValidRank l) := by
  unfold ValidRank
  infer_instance

/-- The opening brace character (written by code point). -/
def lbraceChar : Char := '\x7b'

/-- The closing brace character (written by code point). -/
def rbraceChar : Char := '\x7d'

/-- Scan forward to just past the first occurrence of the closing
delimiter; none when the delimiter never occurs. -/
def dropThrough (closeC : Char) : List Char → Option (List Char)
  | [] => none
  | c :: rest => if c = closeC then some rest else dropThrough closeC rest

/-- Model of the global regex replaces in `App.tsx parsePgnMoves`:
`.replace(/\x7b[^\x7d]*\x7d/g, '')` and `.replace(/\([^)]*\)/g, '')`.
A leftmost opening delimiter together with everything up to the first
closing delimiter is deleted; an opening delimiter with no later closing
delimiter stays, matching the regex semantics. -/
def stripBlocksFuel (openC closeC : Char) : Nat → List Char → List Char
  | _, [] => []
  | 0, l => l
  | fuel + 1, c :: rest =>
    if c = openC then
      match dropThrough closeC rest with
      | some rest' => stripBlocksFuel openC closeC fuel rest'
      | none => c :: stripBlocksFuel openC closeC fuel rest
    else c :: stripBlocksFuel openC closeC fuel rest

/-- The replace pass run with enough fuel: `dropThrough` always hands
back a strictly shorter list, so fuel equal to the input length is never
exhausted and the zero-fuel branch is unreachable. -/
def stripBlocks (openC closeC : Char) (l : List Char) : List Char :=
  stripBlocksFuel openC closeC l.length l

/-- Model of the JS `.split(/\s+/)` stage of `App.tsx parsePgnMoves`:
split at every whitespace character keeping empty segments; the
subsequent `.filter(Boolean)` drops the empty ones. -/
def wsSplit : List Char → List (List Char)
  | [] => [[]]
  | c :: rest =>
    let r := wsSplit rest
    if c.isWhitespace then [] :: r else (c :: r.headD []) :: r.tail

/-- The JS move-number test `/^\d+\.+$/.test(token)`: one or more digits
followed by one or more dots and nothing else. -/
def isMoveNumberToken (t : List Char) : Bool :=
  let ds := t.takeWhile (fun c => c.isDigit)
  let rest := t.dropWhile (fun c => c.isDigit)
  !ds.isEmpty && !rest.isEmpty && rest.all (fun c => c = '.')

/-- The terminal-result token test in `App.tsx parsePgnMoves`. -/
def isResultToken (t : String) : Bool :=
  t = "1-0" || t = "0-1" || t = "1/2-1/2" || t = "*"

/-- One row of the rendered move list (`moveNumber`, white SAN, black SAN). -/
structure MoveRow where
  moveNumber : Nat
  white : String
  black : String
deriving DecidableEq

/-- Token pipeline of `App.tsx parsePgnMoves`: strip brace comments then
paren variations, split on whitespace, drop empty tokens, drop
move-number and terminal-result tokens. -/
def movesOf (pgn : String) : List String :=
  let cleaned := stripBlocks '(' ')' (stripBlocks lbraceChar rbraceChar pgn.data)
  let tokens := ((wsSplit cleaned).filter (fun t => t ≠ [])).map (fun l => String.mk l)
  tokens.filter (fun t => !isMoveNumberToken t.data && !isResultToken t)

/-- Embedding of `App.tsx parsePgnMoves`: the pairing loop
`for (let i = 0; i < moves.length; i += 2)` producing one row per
white/black pair, `moveNumber = Math.floor(i / 2) + 1`, missing slots
replaced by the empty string. -/
def parsePgnMoves (pgn : String) : List MoveRow :=
  let moves := movesOf pgn
  (List.range ((moves.length + 1) / 2)).map (fun k =>
    ⟨k + 1, moves.getD (2 * k) "", moves.getD (2 * k + 1) ""⟩)

/-- An 8x8 board of optional piece codes, row 0 the topmost displayed
rank (rank 8), modeling the JS `BoardSquare[][]`; in-place array writes
are modeled as functional update. -/
def Board : Type := Fin 8 → Fin 8 → Option Char

/-- Functional update of one square, modeling `board[r][c] = v`. -/
def setSq (b : Board) (r c : Fin 8) (v : Option Char) : Board :=
  fun r' c' => if r' = r ∧ c' = c then v else b r' c'

/-- The file letters array of api.ts and App.tsx. -/
def files : List Char := ['a', 'b', 'c', 'd', 'e', 'f', 'g', 'h']

/-- Column of a file letter: `files.indexOf(square[0])`; none models the
JS -1 result for an unknown letter, which makes the later board access
throw in the source. -/
def fileIndex (c : Char) : Option (Fin 8) :=
  let i := files.indexOf c
  if h : i < 8 then some ⟨i, h⟩ else none

/-- Row of a rank digit: `8 - Number(square[1])`; none models a digit
outside 1..8, which makes the later board access throw in the source. -/
def rowOfRankChar (c : Char) : Option (Fin 8) :=
  let r := c.toNat - '0'.toNat
  if h : 1 ≤ r ∧ r ≤ 8 then some ⟨8 - r, by omega⟩ else none

/-- Embedding of `api.ts squareToCoords`: row and column of an algebraic
square given as its two characters. -/
def squareToCoords (sq : List Char) : Option (Fin 8 × Fin 8) :=
  match sq with
  | [f, r] => do
      let col ← fileIndex f
      let row ← rowOfRankChar r
      pure (row, col)
  | _ => none

/-- Shape shared by the four castling `if` statements of
`api.ts applyUciMove`: when the moved piece and the from/to squares
match, the rook at (r2, c2) is copied to (r1, c1) and its origin
cleared. -/
def castleStep (p0 : Char) (f0 t0 : List Char) (r1 c1 r2 c2 : Fin 8)
    (b : Board) (piece : Char) (fromS toS : List Char) : Board :=
  if piece = p0 ∧ fromS = f0 ∧ toS = t0 then
    setSq (setSq b r1 c1 (b r2 c2)) r2 c2 none
  else b

/-- First castling branch: white short castling moves the h1 rook to f1
when the moved piece is the white king going e1 to g1. -/
def castleWK : Board → Char → List Char → List Char → Board :=
  castleStep 'K' ['e', '1'] ['g', '1'] 7 5 7 7

/-- Second castling branch: white long castling moves the a1 rook to d1. -/
def castleWQ : Board → Char → List Char → List Char → Board :=
  castleStep 'K' ['e', '1'] ['c', '1'] 7 3 7 0

/-- Third castling branch: black short castling moves the h8 rook to f8. -/
def castleBK : Board → Char → List Char → List Char → Board :=
  castleStep 'k' ['e', '8'] ['g', '8'] 0 5 0 7

/-- Fourth castling branch: black long castling moves the a8 rook to d8. -/
def castleBQ : Board → Char → List Char → List Char → Board :=
  castleStep 'k' ['e', '8'] ['c', '8'] 0 3 0 0

/-- The four sequential castling `if` statements of `api.ts applyUciMove`. -/
def applyCastling (b : Board) (piece : Char) (fromS toS : List Char) : Board :=
  castleBQ (castleBK (castleWQ (castleWK b piece fromS toS) piece fromS toS) piece fromS toS)
    piece fromS toS

/-- The squares the castling branches write for a given mover and move,
used to state which squares a move may touch besides from and to. -/
def castleRookSquares (piece : Char) (fromS toS : List Char) : List (Fin 8 × Fin 8) :=
  if piece = 'K' ∧ fromS = ['e', '1'] ∧ toS = ['g', '1'] then [(7, 5), (7, 7)]
  else if piece = 'K' ∧ fromS = ['e', '1'] ∧ toS = ['c', '1'] then [(7, 3), (7, 0)]
  else if piece = 'k' ∧ fromS = ['e', '8'] ∧ toS = ['g', '8'] then [(0, 5), (0, 7)]
  else if piece = 'k' ∧ fromS = ['e', '8'] ∧ toS = ['c', '8'] then [(0, 3), (0, 0)]
  else []

/-- Embedding of `api.ts applyUciMove`: slice from, to and the optional
promotion letter out of the code, clear the from square, run the four
castling branches, then place the (possibly promoted, case-matched)
piece on the to square. An empty from square returns the board
unchanged; an unparseable square also returns it unchanged (the source
would throw there). -/
def applyUciMove (b : Board) (uci : String) : Board :=
  match uci.data with
  | c0 :: c1 :: c2 :: c3 :: rest =>
    match squareToCoords [c0, c1], squareToCoords [c2, c3] with
    | some (fromRow, fromCol), some (toRow, toCol) =>
      match b fromRow fromCol with
      | none => b
      | some piece =>
        let b1 := setSq b fromRow fromCol none
        let b2 := applyCastling b1 piece [c0, c1] [c2, c3]
        let movedPiece :=
          match rest.head? with
          | some p => if piece.toUpper = piece then p.toUpper else p.toLower
          | none => piece
        setSq b2 toRow toCol (some movedPiece)
    | _, _ => b
  | _ => b

/-- Loop body state of `api.ts boardToPlacement`: the pending empty-run
counter and the line built so far, processed square by square; at the
end a pending run is flushed as its decimal digits. -/
def encodeRankAux (e : Nat) (line : List Char) : List (Option Char) → List Char
  | [] => if e > 0 then line ++ (toString e).data else line
  | none :: rest => encodeRankAux (e + 1) line rest
  | some c :: rest =>
      encodeRankAux 0 ((if e > 0 then line ++ (toString e).data else line) ++ [c]) rest

/-- One rank of `api.ts boardToPlacement`: runs of empty squares become
their decimal length, pieces are emitted directly. -/
def encodeRank (rank : List (Option Char)) : List Char := encodeRankAux 0 [] rank

/-- The functional board read back as the row-major grid the JS array held. -/
def boardRows (b : Board) : List (List (Option Char)) :=
  (List.finRange 8).map (fun r => (List.finRange 8).map (fun c => b r c))

/-- Embedding of `api.ts boardToPlacement`: encode each rank and join the
lines with '/'. -/
def boardToPlacement (b : Board) : String :=
  String.mk (List.intercalate ['/'] ((boardRows b).map encodeRank))

/-- The start position rows of `api.ts createStartBoard`. -/
def startRows : List (List (Option Char)) :=
  [ [some 'r', some 'n', some 'b', some 'q', some 'k', some 'b', some 'n', some 'r'],
    [some 'p', some 'p', some 'p', some 'p', some 'p', some 'p', some 'p', some 'p'],
    [none, none, none, none, none, none, none, none],
    [none, none, none, none, none, none, none, none],
    [none, none, none, none, none, none, none, none],
    [none, none, none, none, none, none, none, none],
    [some 'P', some 'P', some 'P', some 'P', some 'P', some 'P', some 'P', some 'P'],
    [some 'R', some 'N', some 'B', some 'Q', some 'K', some 'B', some 'N', some 'R'] ]

/-- Embedding of `api.ts createStartBoard` as a functional board. -/
def createStartBoard : Board :=
  fun r c => (startRows.getD r.val []).getD c.val none

/-- The standard initial position string shared by App.tsx and the mock module. -/
def startFen : String := "rnbqkbnr/pppppppp/8/8/8/8/PPPPPPPP/RNBQKBNR w KQkq - 0 1"

/-- Payload of the `match_started` wire event (sse.ts MatchStartedEvent). -/
structure MatchStartedEvent where
  match_id : String
  start_fen : String
deriving DecidableEq

/-- Payload of the `clock` wire event (sse.ts ClockEvent). -/
structure ClockEvent where
  white_ms : Int
  black_ms : Int
deriving DecidableEq

/-- Payload of the `move` wire event (sse.ts MoveEvent). -/
structure MoveEvent where
  ply : Int
  uci : String
  san : String
  fen : String
  pgn : String
deriving DecidableEq

/-- Payload of the `result` wire event (sse.ts ResultEvent). -/
structure ResultEvent where
  result : String
  reason : String
deriving DecidableEq

/-- One raw SSE message: a named event kind and a text body. -/
structure WireMessage where
  kind : String
  body : String
deriving DecidableEq

/-- A handler invocation the stream client performs, one per typed event. -/
inductive HandlerCall where
  | onMatchStarted (d : MatchStartedEvent)
  | onClock (d : ClockEvent)
  | onMove (d : MoveEvent)
  | onResult (d : ResultEvent)
deriving DecidableEq

/-- The host JSON decoder at the four listener call sites of
`sse.ts createMatchStream` (`JSON.parse(event.data) as T`). JSON.parse
is a browser built-in, so it is a parameter of the model: each field
returns the decoded payload, or none when the body does not decode to
that shape (JSON.parse throws). -/
structure JsonCodec where
  parseMatchStarted : String → Option MatchStartedEvent
  parseClock : String → Option ClockEvent
  parseMove : String → Option MoveEvent
  parseResult : String → Option ResultEvent

/-- A body that is not valid JSON fails to decode as every payload shape. -/
def NotJson (c : JsonCodec) (body : String) : Prop :=
  c.parseMatchStarted body = none ∧ c.parseClock body = none ∧
    c.parseMove body = none ∧ c.parseResult body = none

/-- Dispatch of one incoming message by the listeners that
`sse.ts createMatchStream` registers: the listener for the message kind
runs `handlers.onX?.(parseEvent(event))`; when `JSON.parse` throws,
the exception escapes the listener and is swallowed by the host event
loop (browser event dispatch isolates listener exceptions), so no
handler is invoked; a kind with no registered listener invokes nothing. -/
def dispatchMessage (c : JsonCodec) (m : WireMessage) : Option HandlerCall :=
  if m.kind = "match_started" then (c.parseMatchStarted m.body).map HandlerCall.onMatchStarted
  else if m.kind = "clock" then (c.parseClock m.body).map HandlerCall.onClock
  else if m.kind = "move" then (c.parseMove m.body).map HandlerCall.onMove
  else if m.kind = "result" then (c.parseResult m.body).map HandlerCall.onResult
  else none

/-- The handler invocations produced by a sequence of incoming messages:
the EventSource delivers messages in order, each dispatched independently. -/
def dispatchMessages (c : JsonCodec) (ms : List WireMessage) : List HandlerCall :=
  ms.filterMap (dispatchMessage c)

/-- The `MatchStatus` union of App.tsx. -/
inductive MatchStatus where
  | idle | loading | connecting | running | finished | error | reconnecting
deriving DecidableEq

/-- The App.tsx component state the session state machine mutates:
the React state atoms plus the stream handle refs and the pending
reconnect timer ref. A live handle is modeled by the match id it was
opened for; the pending timer by its delay and captured match id. -/
structure Session where
  status : MatchStatus
  matchId : Option String
  fen : String
  pgn : String
  clocks : Option ClockEvent
  result : Option ResultEvent
  lastMoveUci : Option String
  streamOpen : Option String
  mockOpen : Bool
  pendingReconnect : Option (Nat × String)
deriving DecidableEq

/-- Embedding of `App.tsx closeStream`: cancel any pending reconnect
timer and close and null both stream handles. -/
def closeStream (s : Session) : Session :=
  { s with pendingReconnect := none, streamOpen := none, mockOpen := false }

/-- Embedding of `App.tsx openStream`: close whatever is open, then open
a live stream scoped to the given match id. -/
def openStream (id : String) (s : Session) : Session :=
  let s1 := closeStream s
  { s1 with streamOpen := some id }

/-- The `onOpen` handler `openStream` registers on the live stream:
`setStatus(current => current === 'reconnecting' ? 'running' : current)`. -/
def onOpenStream (s : Session) : Session :=
  { s with status := if s.status = MatchStatus.reconnecting then MatchStatus.running else s.status }

/-- The `onMatchStarted` handler of `openStream`: status running, position
reset to the received start position (or the default when empty), moves
and result cleared. -/
def onMatchStartedStream (d : MatchStartedEvent) (s : Session) : Session :=
  { s with status := MatchStatus.running,
           fen := if d.start_fen = "" then startFen else d.start_fen,
           pgn := "", result := none }

/-- The `onClock` handler of `openStream`: replace the clock pair. -/
def onClockStream (d : ClockEvent) (s : Session) : Session :=
  { s with clocks := some d }

/-- The `onMove` handler of `openStream`: replace position, move text and
last move code. -/
def onMoveStream (d : MoveEvent) (s : Session) : Session :=
  { s with fen := d.fen, pgn := d.pgn, lastMoveUci := some d.uci }

/-- The `onResult` handler of `openStream`: record the result, finish,
close the source. -/
def onResultStream (d : ResultEvent) (s : Session) : Session :=
  closeStream { s with result := some d, status := MatchStatus.finished }

/-- The `onError` handler of `openStream`: status reconnecting, close the
current handle, then schedule one deferred `openStream(id)` retry after
1500 ms in the reconnect timer ref. -/
def onErrorStream (id : String) (s : Session) : Session :=
  let s1 := closeStream { s with status := MatchStatus.reconnecting }
  { s1 with pendingReconnect := some (1500, id) }

/-- The reconnect timer firing: a pending `setTimeout(() => openStream(id), 1500)`
callback runs `openStream(id)` (which also clears the stale timer ref);
a cancelled timer never fires, so without a pending entry nothing happens. -/
def fireReconnect (s : Session) : Session :=
  match s.pendingReconnect with
  | some (_, id) => openStream id { s with pendingReconnect := none }
  | none => s

/-- Embedding of `App.tsx resetMatch` (the explicit stop): close the
source (cancelling any pending reconnect) and reset every field. -/
def resetMatch (s : Session) : Session :=
  let s1 := closeStream s
  { s1 with matchId := none, fen := startFen, pgn := "", clocks := none,
            result := none, lastMoveUci := none, status := MatchStatus.idle }

/-- The `onOpen` handler the mock path registers in `App.tsx handleStart`:
`onOpen: () => setStatus('running')`, unconditional. -/
def onOpenMock (s : Session) : Session :=
  { s with status := MatchStatus.running }

/-- The fixed scripted game of the mock module (`mockMoves` in api.ts),
as (uci, san) pairs. -/
def mockMoves : List (String × String) :=
  [("e2e4", "e4"), ("c7c5", "c5"), ("g1f3", "Nf3"), ("d7d6", "d6"),
   ("d2d4", "d4"), ("c5d4", "cxd4"), ("f3d4", "Nxd4"), ("g8f6", "Nf6"),
   ("b1c3", "Nc3"), ("a7a6", "a6"), ("f1e2", "Be2"), ("e7e6", "e6"),
   ("e1g1", "O-O"), ("f8e7", "Be7"), ("f2f4", "f4"), ("e8g8", "O-O"),
   ("c1e3", "Be3"), ("d8c7", "Qc7"), ("a2a4", "a4"), ("b8c6", "Nc6")]

/-- The mutable closure state of `api.ts createMockStream`. -/
structure SimState where
  moveIndex : Nat
  whiteMs : Int
  blackMs : Int
  closed : Bool
  sideToMove : Char
  board : Board
  pgnMoves : List String

/-- An event the simulator hands to its handler set; `opened` is the
payload-free `onOpen` call. -/
inductive SimEvent where
  | opened
  | matchStarted (match_id : String) (start_fen : String)
  | clock (white_ms : Int) (black_ms : Int)
  | move (ply : Nat) (uci : String) (san : String) (fen : String) (pgn : String)
  | result (res : String) (reason : String)
deriving DecidableEq

/-- Which of the two independent interval timers fires; the 200 ms clock
cadence and the 1200 ms move cadence are not synchronized, so a run is
any interleaving of the two. -/
inductive Tick where
  | clock
  | move
deriving DecidableEq

/-- The closure state right after `createMockStream(initialMs, handlers)`
sets up. -/
def initSimState (initialMs : Int) : SimState :=
  ⟨0, initialMs, initialMs, false, 'w', createStartBoard, []⟩

/-- The two synchronous calls `createMockStream` makes before any timer
fires: `onOpen` then `MatchStarted` with the standard start position. -/
def initEvents : List SimEvent :=
  [SimEvent.opened, SimEvent.matchStarted "mock" startFen]

/-- One firing of the 200 ms clock interval in `createMockStream`:
nothing once closed; otherwise both remaining times drop by 200 clamped
at 0 and a `Clock` event is emitted. -/
def clockTick (s : SimState) : SimState × Option SimEvent :=
  if s.closed then (s, none)
  else
    let w := max 0 (s.whiteMs - 200)
    let b := max 0 (s.blackMs - 200)
    ({ s with whiteMs := w, blackMs := b }, some (SimEvent.clock w b))

/-- The scripted-move branch of the 1200 ms move interval: apply the move
to the internal board, extend the accumulated move-list text (a new
numbered row on a White move, appended to the last row on a Black move),
toggle the side to move, and emit the `Move` event. -/
def moveApply (s : SimState) (mv : String × String) : SimState × Option SimEvent :=
  let board1 := applyUciMove s.board mv.1
  let pgnMoves1 :=
    if s.moveIndex % 2 = 0 then
      s.pgnMoves ++ [toString (s.moveIndex / 2 + 1) ++ ". " ++ mv.2]
    else
      s.pgnMoves.dropLast ++ [s.pgnMoves.getLastD "" ++ " " ++ mv.2]
  let side1 := if s.sideToMove = 'w' then 'b' else 'w'
  let fen := boardToPlacement board1 ++ " " ++ side1.toString ++ " - - 0 1"
  ({ s with board := board1, pgnMoves := pgnMoves1, sideToMove := side1,
            moveIndex := s.moveIndex + 1 },
   some (SimEvent.move (s.moveIndex + 1) mv.1 mv.2 fen (String.intercalate " " pgnMoves1)))

/-- One firing of the 1200 ms move interval in `createMockStream`:
nothing once closed; with the script exhausted it emits the fixed
terminal `Result` and stops both timers (modeled by `closed := true`,
which every later firing observes); otherwise it plays the next
scripted move. -/
def moveTick (s : SimState) : SimState × Option SimEvent :=
  if s.closed then (s, none)
  else
    match mockMoves[s.moveIndex]? with
    | none => ({ s with closed := true }, some (SimEvent.result "1-0" "checkmate"))
    | some mv => moveApply s mv

/-- Dispatch one timer firing. -/
def simStep (s : SimState) (t : Tick) : SimState × Option SimEvent :=
  match t with
  | Tick.clock => clockTick s
  | Tick.move => moveTick s

/-- Run the simulator over a finite interleaving of timer firings,
collecting the emitted events in order. -/
def simRun (s : SimState) : List Tick → SimState × List SimEvent
  | [] => (s, [])
  | t :: ts =>
    let p := simStep s t
    let q := simRun p.1 ts
    (q.1, p.2.toList ++ q.2)

/-- Every event a fresh `createMockStream(initialMs, _)` instance emits
when its timers fire in the given interleaving: the synchronous open
events followed by the timer-driven events. -/
def simTrace (initialMs : Int) (ticks : List Tick) : List SimEvent :=
  initEvents ++ (simRun (initSimState initialMs) ticks).2

/-- Recognizer for `Result` events. -/
def isResultEv : SimEvent → Bool
  | SimEvent.result _ _ => true
  | _ => false

/-- Recognizer for `Move` events. -/
def isMoveEv : SimEvent → Bool
  | SimEvent.move _ _ _ _ _ => true
  | _ => false

/-- Number of `Result` events in a trace. -/
def countResults (evs : List SimEvent) : Nat := (evs.filter isResultEv).length

/-- Number of `Move` events in a trace. -/
def countMovesEv (evs : List SimEvent) : Nat := (evs.filter isMoveEv).length

/-- Number of move-timer firings in an interleaving. -/
def countMoveTicks (ticks : List Tick) : Nat :=
  (ticks.filter (fun t => t = Tick.move)).length

/-- The white remaining-time values of the `Clock` events of a trace, in
emission order. -/
def clockWhites (evs : List SimEvent) : List Int :=
  evs.filterMap (fun e => match e with | SimEvent.clock w _ => some w | _ => none)

/-- The black remaining-time values of the `Clock` events of a trace, in
emission order. -/
def clockBlacks (evs : List SimEvent) : List Int :=
  evs.filterMap (fun e => match e with | SimEvent.clock _ b => some b | _ => none)

/-- A concrete decoder instance for exercising the dispatch model: it
decodes the body "ok" for each shape and rejects everything else. -/
def sampleCodec : JsonCodec where
  parseMatchStarted b := if b = "ok" then some ⟨"m1", startFen⟩ else none
  parseClock b := if b = "ok" then some ⟨100, 100⟩ else none
  parseMove b := if b = "ok" then some ⟨1, "e2e4", "e4", "f", "p"⟩ else none
  parseResult b := if b = "ok" then some ⟨"1-0", "checkmate"⟩ else none

/-- A session sitting in `connecting` with a live stream handle. -/
def connectingSession : Session :=
  ⟨MatchStatus.connecting, some "m1", startFen, "", none, none, none, some "m1", false, none⟩

/-- A session sitting in `running` with a live stream handle. -/
def runningSession : Session :=
  ⟨MatchStatus.running, some "m1", startFen, "", none, none, none, some "m1", false, none⟩

/-- A session sitting in `reconnecting`. -/
def reconnectingSession : Session :=
  ⟨MatchStatus.reconnecting, some "m1", startFen, "", none, none, none, none, false, none⟩

/-- A board with a white queen on e1 and a white rook on h1. -/
def qRookBoard : Board :=
  fun r c =>
    if r.val = 7 ∧ c.val = 4 then some 'Q'
    else if r.val = 7 ∧ c.val = 7 then some 'R'
    else none

/-- A board whose only occupied cell holds a space character, which is
neither a digit 1-8 nor a slash. -/
def spaceBoard : Board :=
  fun r c => if r.val = 0 ∧ c.val = 0 then some ' ' else none

/-- A piece code that survives the placement round trip: not a digit 1-8
(it would be read back as an empty run), not a slash (the rank
separator), and not a space (the field separator the parser splits on
first). -/
def goodCellB (ch : Char) : Bool :=
  !isDigit18 ch && ch != '/' && ch != ' '

/-- C1: a wire message whose body is not valid JSON invokes no handler,
and the surrounding messages are dispatched exactly as if it were
absent: the malformed message is swallowed and the next message is
still parsed and dispatched normally. -/
theorem dispatch_malformed_swallowed (c : JsonCodec) (ms1 ms2 : List WireMessage)
    (m : WireMessage) (hbad : NotJson c m.body) :
    dispatchMessage c m = none ∧
    dispatchMessages c (ms1 ++ m :: ms2) = dispatchMessages c ms1 ++ dispatchMessages c ms2 := by
  obtain ⟨h1, h2, h3, h4⟩ := hbad
  have hnone : dispatchMessage c m = none := by
    unfold dispatchMessage
    split_ifs <;> simp [h1, h2, h3, h4]
  refine ⟨hnone, ?_⟩
  unfold dispatchMessages
  rw [List.filterMap_append]
  simp [List.filterMap_cons, hnone]

/-- Witness for C1: with the sample decoder, a malformed clock body in
the middle of two well-formed messages leaves the surrounding dispatch
untouched. -/
theorem dispatch_malformed_swallowed_witness :
    dispatchMessage sampleCodec ⟨"clock", "oops"⟩ = none ∧
    dispatchMessages sampleCodec
        ([⟨"clock", "ok"⟩] ++ (⟨"clock", "oops"⟩ : WireMessage) :: [⟨"move", "ok"⟩]) =
      dispatchMessages sampleCodec [⟨"clock", "ok"⟩] ++ dispatchMessages sampleCodec [⟨"move", "ok"⟩] :=
  dispatch_malformed_swallowed sampleCodec [⟨"clock", "ok"⟩] [⟨"move", "ok"⟩]
    ⟨"clock", "oops"⟩ ⟨by decide, by decide, by decide, by decide⟩

/-- C3: on `onError` in a running, connecting or reconnecting session,
the state machine moves to `reconnecting`, closes the event handles,
and schedules exactly one deferred 1500 ms retry for the same match id;
firing the timer reopens the stream for that id and leaves no pending
retry, while an explicit stop cancels the pending timer so a fire after
the stop changes nothing. -/
theorem onError_reconnect_policy (s : Session) (id : String)
    (_h : s.status = MatchStatus.running ∨ s.status = MatchStatus.connecting ∨
      s.status = MatchStatus.reconnecting) :
    (onErrorStream id s).status = MatchStatus.reconnecting ∧
    (onErrorStream id s).streamOpen = none ∧
    (onErrorStream id s).mockOpen = false ∧
    (onErrorStream id s).pendingReconnect = some (1500, id) ∧
    (fireReconnect (onErrorStream id s)).streamOpen = some id ∧
    (fireReconnect (onErrorStream id s)).pendingReconnect = none ∧
    (resetMatch (onErrorStream id s)).pendingReconnect = none ∧
    fireReconnect (resetMatch (onErrorStream id s)) = resetMatch (onErrorStream id s) :=
  ⟨rfl, rfl, rfl, rfl, rfl, rfl, rfl, rfl⟩

/-- Witness for C3 at a concrete running session. -/
theorem onError_reconnect_policy_witness :
    (onErrorStream "m1" runningSession).status = MatchStatus.reconnecting ∧
    (onErrorStream "m1" runningSession).streamOpen = none ∧
    (onErrorStream "m1" runningSession).mockOpen = false ∧
    (onErrorStream "m1" runningSession).pendingReconnect = some (1500, "m1") ∧
    (fireReconnect (onErrorStream "m1" runningSession)).streamOpen = some "m1" ∧
    (fireReconnect (onErrorStream "m1" runningSession)).pendingReconnect = none ∧
    (resetMatch (onErrorStream "m1" runningSession)).pendingReconnect = none ∧
    fireReconnect (resetMatch (onErrorStream "m1" runningSession)) =
      resetMatch (onErrorStream "m1" runningSession) :=
  onError_reconnect_policy runningSession "m1" (Or.inl rfl)

/-- Counterexample to C4 as stated: the stream-client `onOpen` handler
received while the status is `connecting` leaves the status at
`connecting`; it does not transition the session to `running`. -/
theorem onOpen_connecting_counterexample :
    connectingSession.status = MatchStatus.connecting ∧
    (onOpenStream connectingSession).status ≠ MatchStatus.running := by
  exact ⟨rfl, by decide⟩

/-- C4 amended: from `connecting`, a `MatchStarted` event flips the
status to `running`; the stream-client `onOpen` handler flips the
status to `running` only from `reconnecting` and leaves `connecting`
unchanged; the simulator-path `onOpen` handler sets `running`
unconditionally. -/
theorem status_flip_on_open_or_matchStarted (s : Session) (d : MatchStartedEvent) :
    (s.status = MatchStatus.connecting →
      (onMatchStartedStream d s).status = MatchStatus.running) ∧
    (s.status = MatchStatus.reconnecting → (onOpenStream s).status = MatchStatus.running) ∧
    (s.status = MatchStatus.connecting → (onOpenStream s).status = MatchStatus.connecting) ∧
    (onOpenMock s).status = MatchStatus.running := by
  refine ⟨fun _ => rfl, fun h => ?_, fun h => ?_, rfl⟩
  · simp [onOpenStream, h]
  · simp [onOpenStream, h]

/-- Witness for the amended C4 at concrete sessions. -/
theorem status_flip_on_open_or_matchStarted_witness :
    (onMatchStartedStream ⟨"m1", startFen⟩ connectingSession).status = MatchStatus.running ∧
    (onOpenStream reconnectingSession).status = MatchStatus.running ∧
    (onOpenStream connectingSession).status = MatchStatus.connecting ∧
    (onOpenMock connectingSession).status = MatchStatus.running := by
  have h1 := status_flip_on_open_or_matchStarted connectingSession ⟨"m1", startFen⟩
  have h2 := status_flip_on_open_or_matchStarted reconnectingSession ⟨"m1", startFen⟩
  exact ⟨h1.1 rfl, h2.2.1 rfl, h1.2.2.1 rfl, h1.2.2.2⟩

/-- The rank fold of parseFen peels its accumulator off to the left. -/
theorem parseRankChars_go (l : List Char) (acc : List (Option Char)) :
    l.foldl (fun row c => row ++ expandChar c) acc =
      acc ++ l.foldl (fun row c => row ++ expandChar c) [] := by
  induction l generalizing acc with
  | nil => simp
  | cons c t ih =>
    simp only [List.foldl_cons, List.nil_append]
    rw [ih, ih (expandChar c), List.append_assoc]

/-- Unfolding of one rank character. -/
theorem parseRankChars_cons (c : Char) (l : List Char) :
    parseRankChars (c :: l) = expandChar c ++ parseRankChars l := by
  unfold parseRankChars
  simp only [List.foldl_cons, List.nil_append]
  exact parseRankChars_go l (expandChar c)

/-- Rank parsing distributes over concatenation. -/
theorem parseRankChars_append (a b : List Char) :
    parseRankChars (a ++ b) = parseRankChars a ++ parseRankChars b := by
  induction a with
  | nil => simp [parseRankChars]
  | cons c t ih => simp [parseRankChars_cons, ih, List.append_assoc]

/-- A parsed rank has exactly as many squares as its characters denote. -/
theorem length_parseRankChars (l : List Char) :
    (parseRankChars l).length = rankWidth l := by
  induction l with
  | nil => rfl
  | cons c t ih =>
    simp only [parseRankChars_cons, List.length_append, ih, rankWidth, List.map_cons,
      List.sum_cons]
    have : (expandChar c).length = charWidth c := by
      unfold expandChar charWidth
      split_ifs <;> simp
    rw [this]

/-- The occupied squares of a parsed rank are exactly its non-digit
characters, in order. -/
theorem filterMap_id_parseRankChars (l : List Char) :
    (parseRankChars l).filterMap id = l.filter (fun c => !isDigit18 c) := by
  induction l with
  | nil => rfl
  | cons c t ih =>
    rw [parseRankChars_cons, List.filterMap_append, ih]
    by_cases hc : isDigit18 c = true
    · simp [expandChar, hc, List.filterMap_replicate]
    · simp [expandChar, hc]

/-- Counterexample to C2 as stated: "zz" is a placement text whose single
rank sums to 2 squares (not 8) out of characters that are not recognized
piece letters, yet `parseFen` does not fail with any error: it succeeds
and returns a two-cell rank. No `MalformedPositionError` exists in the
source. -/
theorem parseFen_no_validation_counterexample :
    parseFen "zz" = [[some 'z', some 'z']] ∧ ¬ValidRank ['z', 'z'] := by
  constructor
  · decide
  · unfold ValidRank
    decide

/-- C2 amended: `parseFen` never fails. On every input it totalizes:
each rank parses to a row whose length is whatever the digit run-lengths
and piece characters of that rank sum to (no 8-square check), and every
non-digit character is kept as a piece code. -/
theorem parseFen_total_characterization (fen : String) :
    (parseFen fen).length = (ranksOf fen).length ∧
    List.Forall₂ (fun row rank =>
        row.length = rankWidth rank ∧
        row.filterMap id = rank.filter (fun c => !isDigit18 c))
      (parseFen fen) (ranksOf fen) := by
  constructor
  · simp [parseFen]
  · unfold parseFen
    rw [List.forall₂_map_left_iff]
    rw [List.forall₂_same]
    intro r _
    exact ⟨length_parseRankChars r, filterMap_id_parseRankChars r⟩

/-- Witness for the amended C2 at the invalid placement "zz". -/
theorem parseFen_total_characterization_witness :
    (parseFen "zz").length = (ranksOf "zz").length ∧
    List.Forall₂ (fun row rank =>
        row.length = rankWidth rank ∧
        row.filterMap id = rank.filter (fun c => !isDigit18 c))
      (parseFen "zz") (ranksOf "zz") :=
  parseFen_total_characterization "zz"

/-- C9: after stripping brace comments and paren variations and
discarding move-number and terminal-result tokens, the remaining move
tokens are paired two-by-two into rows numbered from 1: the row count is
the ceiling of half the move count, row k holds moves 2k and 2k+1 (an
absent black slot is the empty string), and an odd move count leaves the
last row with an empty black slot. -/
theorem parsePgnMoves_pairs (pgn : String) :
    (parsePgnMoves pgn).length = ((movesOf pgn).length + 1) / 2 ∧
    (∀ k, k < ((movesOf pgn).length + 1) / 2 →
        (parsePgnMoves pgn).getD k ⟨0, "", ""⟩ =
          ⟨k + 1, (movesOf pgn).getD (2 * k) "", (movesOf pgn).getD (2 * k + 1) ""⟩) ∧
    ((movesOf pgn).length % 2 = 1 →
        ((parsePgnMoves pgn).getLast?).map MoveRow.black = some "") := by
  refine ⟨by simp [parsePgnMoves], ?_, ?_⟩
  · intro k hk
    rw [parsePgnMoves, List.getD_eq_getElem?_getD, List.getElem?_map,
      List.getElem?_range hk]
    rfl
  · intro hodd
    have hlen : (parsePgnMoves pgn).length = ((movesOf pgn).length + 1) / 2 := by
      simp [parsePgnMoves]
    rw [List.getLast?_eq_getElem?, hlen, parsePgnMoves, List.getElem?_map,
      List.getElem?_range (by omega)]
    have hidx : 2 * (((movesOf pgn).length + 1) / 2 - 1) + 1 = (movesOf pgn).length := by
      omega
    simp only [Option.map_some']
    show some ((movesOf pgn).getD (2 * (((movesOf pgn).length + 1) / 2 - 1) + 1) "") = some ""
    rw [hidx, List.getD_eq_default _ _ (le_refl _)]

/-- Witness for C9 on a move list with a brace comment, a paren
variation, move numbers, a terminal-result token and three moves: two
rows come back and the dangling final white move leaves the black slot
empty. -/
theorem parsePgnMoves_pairs_witness :
    (parsePgnMoves "1. e4 \x7bgood\x7d e5 (or c5) 2. Nf3 1-0").length = 2 ∧
    (parsePgnMoves "1. e4 \x7bgood\x7d e5 (or c5) 2. Nf3 1-0").getD 0 ⟨0, "", ""⟩ =
      ⟨1, "e4", "e5"⟩ ∧
    (parsePgnMoves "1. e4 \x7bgood\x7d e5 (or c5) 2. Nf3 1-0").getD 1 ⟨0, "", ""⟩ =
      ⟨2, "Nf3", ""⟩ ∧
    ((parsePgnMoves "1. e4 \x7bgood\x7d e5 (or c5) 2. Nf3 1-0").getLast?).map MoveRow.black =
      some "" := by
  have h := parsePgnMoves_pairs "1. e4 \x7bgood\x7d e5 (or c5) 2. Nf3 1-0"
  refine ⟨?_, ?_, ?_, h.2.2 (by decide)⟩
  · rw [h.1]
    decide
  · rw [h.2.1 0 (by decide)]
    decide
  · rw [h.2.1 1 (by decide)]
    decide

/-- C8: on a placement text whose 8 ranks are each valid (summing to 8
squares out of digits 1-8 and recognized piece letters), `parseFen`
returns exactly 8 rows of exactly 8 cells, and in each row the occupied
cells are exactly the non-digit characters of that rank, in order. -/
theorem parseFen_valid_8x8 (fen : String) (ranks : List (List Char))
    (hranks : ranksOf fen = ranks) (hlen : ranks.length = 8)
    (hvalid : ∀ r ∈ ranks, ValidRank r) :
    (parseFen fen).length = 8 ∧
    (∀ row ∈ parseFen fen, row.length = 8) ∧
    List.Forall₂ (fun row rank => row.filterMap id = rank.filter (fun c => !isDigit18 c))
      (parseFen fen) ranks := by
  have hpf : parseFen fen = ranks.map parseRankChars := by rw [parseFen, hranks]
  refine ⟨by rw [hpf]; simp [hlen], ?_, ?_⟩
  · intro row hrow
    rw [hpf] at hrow
    obtain ⟨r, hr, rfl⟩ := List.mem_map.mp hrow
    rw [length_parseRankChars]
    exact (hvalid r hr).1
  · rw [hpf, List.forall₂_map_left_iff, List.forall₂_same]
    intro r _
    exact filterMap_id_parseRankChars r

/-- Witness for C8 at the standard initial placement. -/
theorem parseFen_valid_8x8_witness :
    (parseFen startFen).length = 8 ∧
    ((parseFen startFen).getD 0 []).length = 8 ∧
    List.Forall₂ (fun row rank => row.filterMap id = rank.filter (fun c => !isDigit18 c))
      (parseFen startFen) (ranksOf startFen) := by
  have h := parseFen_valid_8x8 startFen (ranksOf startFen) rfl (by decide) (by decide)
  exact ⟨h.1, h.2.1 _ (by decide), h.2.2⟩

/-- The rank encoder only appends to the line built so far. -/
theorem encodeRankAux_line (row : List (Option Char)) : ∀ (e : Nat) (line : List Char),
    encodeRankAux e line row = line ++ encodeRankAux e [] row := by
  induction row with
  | nil =>
    intro e line
    by_cases he : e > 0 <;> simp [encodeRankAux, he]
  | cons sq rest ih =>
    intro e line
    cases sq with
    | none => simp only [encodeRankAux]; rw [ih, ih (e + 1) []]
    | some c =>
      simp only [encodeRankAux]
      by_cases he : e > 0
      · simp only [he, if_pos]
        rw [ih 0 ((line ++ (toString e).data) ++ [c]), ih 0 (([] ++ (toString e).data) ++ [c])]
        simp [List.append_assoc]
      · simp only [he, if_neg, not_false_iff]
        rw [ih 0 (line ++ [c]), ih 0 ([] ++ [c])]
        simp

/-- Parsing the decimal digits of a run length between 1 and 8 expands
back to that many empty squares. -/
theorem parse_run_digits (e : Nat) (h1 : 1 ≤ e) (h8 : e ≤ 8) :
    parseRankChars (toString e).data = List.replicate e none := by
  interval_cases e <;> decide

/-- The decimal digits of a run length between 1 and 8 are neither a
slash nor a space. -/
theorem run_digits_good (e : Nat) (h1 : 1 ≤ e) (h8 : e ≤ 8) :
    ∀ ch ∈ (toString e).data, ch ≠ '/' ∧ ch ≠ ' ' := by
  interval_cases e <;> decide

/-- Parsing inverts the rank encoder: with good cells and a pending run
plus remaining squares bounded by 8, the encoded text expands back to
the pending empties followed by the original squares. -/
theorem parse_encodeRankAux (row : List (Option Char)) : ∀ e : Nat,
    (∀ ch, some ch ∈ row → goodCellB ch = true) → e + row.length ≤ 8 →
    parseRankChars (encodeRankAux e [] row) = List.replicate e none ++ row := by
  induction row with
  | nil =>
    intro e _ hb
    match e with
    | 0 => simp [encodeRankAux, parseRankChars]
    | Nat.succ k =>
      simp only [encodeRankAux, gt_iff_lt, Nat.succ_pos, if_pos, List.nil_append]
      rw [parse_run_digits (k + 1) (Nat.succ_le_succ (Nat.zero_le k)) (by omega)]
      simp
  | cons sq rest ih =>
    intro e hg hb
    cases sq with
    | none =>
      simp only [encodeRankAux]
      rw [ih (e + 1) (fun ch hch => hg ch (List.mem_cons_of_mem _ hch))
        (by simp only [List.length_cons] at hb; omega)]
      rw [List.replicate_succ', List.append_assoc]
      rfl
    | some c =>
      have hc : goodCellB c = true := hg c (List.mem_cons_self _ _)
      have hcd : isDigit18 c = false := by
        unfold goodCellB at hc
        simp only [Bool.and_eq_true, Bool.not_eq_true'] at hc
        exact hc.1.1
      simp only [encodeRankAux, List.nil_append]
      rw [encodeRankAux_line]
      rw [parseRankChars_append, parseRankChars_append]
      rw [ih 0 (fun ch hch => hg ch (List.mem_cons_of_mem _ hch)) (by simp at hb; omega)]
      have hparse_c : parseRankChars [c] = [some c] := by
        rw [show ([c] : List Char) = [] ++ [c] from rfl]
        simp [parseRankChars_cons, parseRankChars, expandChar, hcd]
      by_cases he : e > 0
      · simp only [he, if_pos]
        rw [parse_run_digits e (by omega) (by simp at hb; omega), hparse_c]
        simp
      · have he0 : e = 0 := by omega
        simp only [he, if_neg, not_false_iff]
        rw [hparse_c, he0]
        simp [parseRankChars]

/-- With good cells and the run bound, every character the rank encoder
emits is a run-length digit or a piece code, hence neither a slash nor
a space. -/
theorem mem_encodeRankAux (row : List (Option Char)) : ∀ e : Nat,
    (∀ ch, some ch ∈ row → goodCellB ch = true) → e + row.length ≤ 8 →
    ∀ ch ∈ encodeRankAux e [] row, ch ≠ '/' ∧ ch ≠ ' ' := by
  induction row with
  | nil =>
    intro e _ hb ch hch
    match e with
    | 0 => simp [encodeRankAux] at hch
    | Nat.succ k =>
      simp only [encodeRankAux, gt_iff_lt, Nat.succ_pos, if_pos, List.nil_append] at hch
      exact run_digits_good (k + 1) (Nat.succ_le_succ (Nat.zero_le k)) (by omega) ch hch
  | cons sq rest ih =>
    intro e hg hb ch hch
    cases sq with
    | none =>
      simp only [encodeRankAux] at hch
      exact ih (e + 1) (fun c hc => hg c (List.mem_cons_of_mem _ hc))
        (by simp only [List.length_cons] at hb; omega) ch hch
    | some c =>
      have hc : goodCellB c = true := hg c (List.mem_cons_self _ _)
      have hcg : c ≠ '/' ∧ c ≠ ' ' := by
        unfold goodCellB at hc
        simp only [Bool.and_eq_true, bne_iff_ne, ne_eq] at hc
        exact ⟨hc.1.2, hc.2⟩
      simp only [encodeRankAux, List.nil_append] at hch
      rw [encodeRankAux_line, List.append_assoc] at hch
      rcases List.mem_append.mp hch with hflush | htail
      · by_cases he : e > 0
        · rw [if_pos he] at hflush
          exact run_digits_good e (by omega) (by simp only [List.length_cons] at hb; omega)
            ch hflush
        · rw [if_neg he] at hflush
          simp at hflush
      · rcases List.mem_append.mp htail with hc1 | hrest
        · rw [List.mem_singleton] at hc1
          exact hc1 ▸ hcg
        · exact ih 0 (fun x hx => hg x (List.mem_cons_of_mem _ hx))
            (by simp only [List.length_cons] at hb; omega) ch hrest

/-- An element of a single-separator intercalation is the separator or
comes from one of the joined lists. -/
theorem mem_intercalate {α : Type} {x sep : α} :
    ∀ lines : List (List α), x ∈ List.intercalate [sep] lines →
      x = sep ∨ ∃ l ∈ lines, x ∈ l := by
  intro lines
  induction lines with
  | nil => intro h; simp [List.intercalate] at h
  | cons a t ih =>
    cases t with
    | nil =>
      intro h
      rw [show List.intercalate [sep] [a] = a from by simp [List.intercalate]] at h
      exact Or.inr ⟨a, List.mem_cons_self _ _, h⟩
    | cons b t2 =>
      intro h
      rw [show List.intercalate [sep] (a :: b :: t2) =
          a ++ sep :: List.intercalate [sep] (b :: t2) from by
        simp [List.intercalate, List.intersperse]] at h
      rcases List.mem_append.mp h with ha | hrest
      · exact Or.inr ⟨a, List.mem_cons_self _ _, ha⟩
      · rcases List.mem_cons.mp hrest with hsep | hr
        · exact Or.inl hsep
        · rcases ih hr with h1 | ⟨l, hl, hx⟩
          · exact Or.inl h1
          · exact Or.inr ⟨l, List.mem_cons_of_mem _ hl, hx⟩

/-- C10 amended: the placement round trip holds for every board whose
occupied cells are not digits 1-8, not the slash, and also not the
space character: parsing the placement text produced by
`boardToPlacement` yields back exactly the original board rows. -/
theorem parseFen_boardToPlacement_roundtrip (b : Board)
    (h : ∀ r c : Fin 8, ((b r c).all goodCellB) = true) :
    parseFen (boardToPlacement b) = boardRows b := by
  have hrowlen : ∀ row ∈ boardRows b, row.length = 8 := by
    intro row hrow
    obtain ⟨r, _, rfl⟩ := List.mem_map.mp hrow
    simp
  have hrowgood : ∀ row ∈ boardRows b, ∀ ch, some ch ∈ row → goodCellB ch = true := by
    intro row hrow ch hch
    obtain ⟨r, _, rfl⟩ := List.mem_map.mp hrow
    obtain ⟨c, _, hc⟩ := List.mem_map.mp hch
    have hall := h r c
    rw [hc] at hall
    simpa [Option.all] using hall
  have hlinegood : ∀ l ∈ (boardRows b).map encodeRank, ∀ ch ∈ l, ch ≠ '/' ∧ ch ≠ ' ' := by
    intro l hl
    obtain ⟨row, hrow, rfl⟩ := List.mem_map.mp hl
    intro ch hch
    exact mem_encodeRankAux row 0 (hrowgood row hrow) (by rw [hrowlen row hrow]) ch hch
  have hnoslash : ∀ l ∈ (boardRows b).map encodeRank, '/' ∉ l :=
    fun l hl hm => (hlinegood l hl _ hm).1 rfl
  have hnospace : ' ' ∉ List.intercalate ['/'] ((boardRows b).map encodeRank) := by
    intro hm
    rcases mem_intercalate _ hm with h1 | ⟨l, hl, hx⟩
    · exact absurd h1 (by decide)
    · exact (hlinegood l hl _ hx).2 rfl
  have hlines_ne : (boardRows b).map encodeRank ≠ [] := by simp [boardRows]
  have hD : ([' '] : List Char).intercalate
      [List.intercalate ['/'] ((boardRows b).map encodeRank)] =
      List.intercalate ['/'] ((boardRows b).map encodeRank) := by
    simp [List.intercalate]
  have hsp : List.splitOn ' ' (List.intercalate ['/'] ((boardRows b).map encodeRank)) =
      [List.intercalate ['/'] ((boardRows b).map encodeRank)] := by
    conv_lhs => rw [← hD]
    exact List.splitOn_intercalate _ ' '
      (by
        intro l hl
        rw [List.mem_singleton] at hl
        subst hl
        exact hnospace)
      (by simp)
  have hranks : ranksOf (boardToPlacement b) = (boardRows b).map encodeRank := by
    unfold ranksOf splitOnChar
    show List.splitOn '/'
        ((List.splitOn ' ' (List.intercalate ['/'] ((boardRows b).map encodeRank))).headD []) =
      _
    rw [hsp]
    show List.splitOn '/' (List.intercalate ['/'] ((boardRows b).map encodeRank)) = _
    exact List.splitOn_intercalate _ '/' hnoslash hlines_ne
  rw [parseFen, hranks, List.map_map]
  have hid : ∀ row ∈ boardRows b, (parseRankChars ∘ encodeRank) row = row := by
    intro row hrow
    have := parse_encodeRankAux row 0 (hrowgood row hrow) (by rw [hrowlen row hrow])
    simpa [encodeRank] using this
  rw [List.map_congr_left hid]
  simp

/-- Counterexample to C10 as stated: the space character is neither a
digit 1-8 nor a slash, so `spaceBoard` satisfies the stated hypothesis,
yet the placement text it serializes to starts with a space, the parser
splits the text on spaces first, and the round trip fails. -/
theorem roundtrip_space_counterexample :
    (∀ r c : Fin 8, ((spaceBoard r c).all fun ch => !isDigit18 ch && ch != '/') = true) ∧
    parseFen (boardToPlacement spaceBoard) ≠ boardRows spaceBoard := by
  exact ⟨by decide, by decide⟩

/-- Witness for the amended C10 at the standard start board. -/
theorem parseFen_boardToPlacement_roundtrip_witness :
    parseFen (boardToPlacement createStartBoard) = boardRows createStartBoard :=
  parseFen_boardToPlacement_roundtrip createStartBoard (by decide)

/-- Reading the square just written. -/
theorem setSq_self (b : Board) (r c : Fin 8) (v : Option Char) : setSq b r c v r c = v := by
  simp [setSq]

/-- Reading any other square after a write. -/
theorem setSq_other (b : Board) (r c : Fin 8) (v : Option Char) (r' c' : Fin 8)
    (h : ¬(r' = r ∧ c' = c)) : setSq b r c v r' c' = b r' c' := by
  simp only [setSq, if_neg h]

/-- A castling branch whose condition holds performs its two rook writes. -/
theorem castleStep_fire (p0 : Char) (f0 t0 : List Char) (r1 c1 r2 c2 : Fin 8)
    (b : Board) (piece : Char) (fromS toS : List Char)
    (h : piece = p0 ∧ fromS = f0 ∧ toS = t0) :
    castleStep p0 f0 t0 r1 c1 r2 c2 b piece fromS toS =
      setSq (setSq b r1 c1 (b r2 c2)) r2 c2 none := by
  unfold castleStep
  rw [if_pos h]

/-- A castling branch whose condition fails changes nothing. -/
theorem castleStep_skip (p0 : Char) (f0 t0 : List Char) (r1 c1 r2 c2 : Fin 8)
    (b : Board) (piece : Char) (fromS toS : List Char)
    (h : ¬(piece = p0 ∧ fromS = f0 ∧ toS = t0)) :
    castleStep p0 f0 t0 r1 c1 r2 c2 b piece fromS toS = b := by
  unfold castleStep
  rw [if_neg h]

/-- The four sequential castling branches collapse to a single four-way
case split: their conditions are pairwise exclusive, so at most one
branch fires. -/
theorem applyCastling_eq (b : Board) (piece : Char) (fromS toS : List Char) :
    applyCastling b piece fromS toS =
      if piece = 'K' ∧ fromS = ['e', '1'] ∧ toS = ['g', '1'] then
        setSq (setSq b 7 5 (b 7 7)) 7 7 none
      else if piece = 'K' ∧ fromS = ['e', '1'] ∧ toS = ['c', '1'] then
        setSq (setSq b 7 3 (b 7 0)) 7 0 none
      else if piece = 'k' ∧ fromS = ['e', '8'] ∧ toS = ['g', '8'] then
        setSq (setSq b 0 5 (b 0 7)) 0 7 none
      else if piece = 'k' ∧ fromS = ['e', '8'] ∧ toS = ['c', '8'] then
        setSq (setSq b 0 3 (b 0 0)) 0 0 none
      else b := by
  unfold applyCastling castleWK castleWQ castleBK castleBQ
  by_cases h1 : piece = 'K' ∧ fromS = ['e', '1'] ∧ toS = ['g', '1']
  · have nc2 : ¬(piece = 'K' ∧ fromS = ['e', '1'] ∧ toS = ['c', '1']) := by
      rintro ⟨-, -, ht⟩
      rw [h1.2.2] at ht
      exact absurd ht (by decide)
    have nc3 : ¬(piece = 'k' ∧ fromS = ['e', '8'] ∧ toS = ['g', '8']) := by
      rintro ⟨hp, -, -⟩
      rw [h1.1] at hp
      exact absurd hp (by decide)
    have nc4 : ¬(piece = 'k' ∧ fromS = ['e', '8'] ∧ toS = ['c', '8']) := by
      rintro ⟨hp, -, -⟩
      rw [h1.1] at hp
      exact absurd hp (by decide)
    rw [castleStep_fire _ _ _ _ _ _ _ _ _ _ _ h1, castleStep_skip _ _ _ _ _ _ _ _ _ _ _ nc2,
      castleStep_skip _ _ _ _ _ _ _ _ _ _ _ nc3, castleStep_skip _ _ _ _ _ _ _ _ _ _ _ nc4,
      if_pos h1]
  · rw [castleStep_skip _ _ _ _ _ _ _ _ _ _ _ h1, if_neg h1]
    by_cases h2 : piece = 'K' ∧ fromS = ['e', '1'] ∧ toS = ['c', '1']
    · have nc3 : ¬(piece = 'k' ∧ fromS = ['e', '8'] ∧ toS = ['g', '8']) := by
        rintro ⟨hp, -, -⟩
        rw [h2.1] at hp
        exact absurd hp (by decide)
      have nc4 : ¬(piece = 'k' ∧ fromS = ['e', '8'] ∧ toS = ['c', '8']) := by
        rintro ⟨hp, -, -⟩
        rw [h2.1] at hp
        exact absurd hp (by decide)
      rw [castleStep_fire _ _ _ _ _ _ _ _ _ _ _ h2, castleStep_skip _ _ _ _ _ _ _ _ _ _ _ nc3,
        castleStep_skip _ _ _ _ _ _ _ _ _ _ _ nc4, if_pos h2]
    · rw [castleStep_skip _ _ _ _ _ _ _ _ _ _ _ h2, if_neg h2]
      by_cases h3 : piece = 'k' ∧ fromS = ['e', '8'] ∧ toS = ['g', '8']
      · have nc4 : ¬(piece = 'k' ∧ fromS = ['e', '8'] ∧ toS = ['c', '8']) := by
          rintro ⟨-, -, ht⟩
          rw [h3.2.2] at ht
          exact absurd ht (by decide)
        rw [castleStep_fire _ _ _ _ _ _ _ _ _ _ _ h3,
          castleStep_skip _ _ _ _ _ _ _ _ _ _ _ nc4, if_pos h3]
      · rw [castleStep_skip _ _ _ _ _ _ _ _ _ _ _ h3, if_neg h3]
        by_cases h4 : piece = 'k' ∧ fromS = ['e', '8'] ∧ toS = ['c', '8']
        · rw [castleStep_fire _ _ _ _ _ _ _ _ _ _ _ h4, if_pos h4]
        · rw [castleStep_skip _ _ _ _ _ _ _ _ _ _ _ h4, if_neg h4]

/-- Squares outside `castleRookSquares` are untouched by the castling
branches. -/
theorem applyCastling_not_mem (b : Board) (piece : Char) (fromS toS : List Char)
    (r c : Fin 8) (h : (r, c) ∉ castleRookSquares piece fromS toS) :
    applyCastling b piece fromS toS r c = b r c := by
  rw [applyCastling_eq]
  unfold castleRookSquares at h
  split_ifs with h1 h2 h3 h4
  · rw [if_pos h1] at h
    simp only [List.mem_cons, List.mem_singleton, Prod.mk.injEq, not_or] at h
    rw [setSq_other _ _ _ _ _ _ h.2.1, setSq_other _ _ _ _ _ _ h.1]
  · rw [if_neg h1, if_pos h2] at h
    simp only [List.mem_cons, List.mem_singleton, Prod.mk.injEq, not_or] at h
    rw [setSq_other _ _ _ _ _ _ h.2.1, setSq_other _ _ _ _ _ _ h.1]
  · rw [if_neg h1, if_neg h2, if_pos h3] at h
    simp only [List.mem_cons, List.mem_singleton, Prod.mk.injEq, not_or] at h
    rw [setSq_other _ _ _ _ _ _ h.2.1, setSq_other _ _ _ _ _ _ h.1]
  · rw [if_neg h1, if_neg h2, if_neg h3, if_pos h4] at h
    simp only [List.mem_cons, List.mem_singleton, Prod.mk.injEq, not_or] at h
    rw [setSq_other _ _ _ _ _ _ h.2.1, setSq_other _ _ _ _ _ _ h.1]
  · rfl

/-- Unfolding of `applyUciMove` on a code of at least four characters
with resolvable squares and an occupied from square. -/
theorem applyUciMove_eq (b : Board) (uci : String) (c0 c1 c2 c3 : Char) (rest : List Char)
    (fr fc tr tc : Fin 8) (piece : Char)
    (hdata : uci.data = c0 :: c1 :: c2 :: c3 :: rest)
    (hfrom : squareToCoords [c0, c1] = some (fr, fc))
    (hto : squareToCoords [c2, c3] = some (tr, tc))
    (hpiece : b fr fc = some piece) :
    applyUciMove b uci =
      setSq (applyCastling (setSq b fr fc none) piece [c0, c1] [c2, c3]) tr tc
        (some (match rest.head? with
               | some p => if piece.toUpper = piece then p.toUpper else p.toLower
               | none => piece)) := by
  unfold applyUciMove
  rw [hdata]
  dsimp only
  rw [hfrom, hto]
  dsimp only
  rw [hpiece]

/-- Counterexample to C5 as stated: with a white queen on e1 and a rook
on h1, the from square of "e1g1" is occupied, yet the rook is not
relocated (h1 keeps the rook, f1 stays empty): the castling rook move
happens only when the moved piece is the corresponding king. -/
theorem applyUciMove_castle_needs_king_counterexample :
    qRookBoard 7 4 = some 'Q' ∧
    applyUciMove qRookBoard "e1g1" 7 7 = some 'R' ∧
    applyUciMove qRookBoard "e1g1" 7 5 = none := by
  exact ⟨by decide, by decide, by decide⟩

/-- Two reads of the same square resolution agree coordinatewise. -/
theorem coords_eq (s : List Char) (r0 c0 fr fc : Fin 8)
    (hconc : squareToCoords s = some (r0, c0))
    (hvar : squareToCoords s = some (fr, fc)) :
    fr = r0 ∧ fc = c0 := by
  rw [hconc] at hvar
  have h := Option.some.inj hvar
  exact ⟨(congrArg Prod.fst h).symm, (congrArg Prod.snd h).symm⟩

/-- Reading the from square back after the castling branches: the
branches only fire for from square e1 or e8 and never write the king
origin, so the cleared from square stays what the pre-castling board
held. -/
theorem applyCastling_from (b1 : Board) (piece : Char) (c0 c1 : Char) (fr fc : Fin 8)
    (toS : List Char) (hfrom : squareToCoords [c0, c1] = some (fr, fc)) :
    applyCastling b1 piece [c0, c1] toS fr fc = b1 fr fc := by
  rw [applyCastling_eq]
  split_ifs with h1 h2 h3 h4
  · obtain ⟨hfr, hfc⟩ := coords_eq ['e', '1'] 7 4 fr fc (by decide) (h1.2.1 ▸ hfrom)
    subst hfr
    subst hfc
    rw [setSq_other _ _ _ _ _ _ (by decide), setSq_other _ _ _ _ _ _ (by decide)]
  · obtain ⟨hfr, hfc⟩ := coords_eq ['e', '1'] 7 4 fr fc (by decide) (h2.2.1 ▸ hfrom)
    subst hfr
    subst hfc
    rw [setSq_other _ _ _ _ _ _ (by decide), setSq_other _ _ _ _ _ _ (by decide)]
  · obtain ⟨hfr, hfc⟩ := coords_eq ['e', '8'] 0 4 fr fc (by decide) (h3.2.1 ▸ hfrom)
    subst hfr
    subst hfc
    rw [setSq_other _ _ _ _ _ _ (by decide), setSq_other _ _ _ _ _ _ (by decide)]
  · obtain ⟨hfr, hfc⟩ := coords_eq ['e', '8'] 0 4 fr fc (by decide) (h4.2.1 ▸ hfrom)
    subst hfr
    subst hfc
    rw [setSq_other _ _ _ _ _ _ (by decide), setSq_other _ _ _ _ _ _ (by decide)]
  · rfl

/-- C5 amended: on a 4-or-5 character code with resolvable squares and an
occupied from square, `applyUciMove` places the moved piece (replaced by
the case-matched promotion letter when a 5th character is present) on
the to square, clears the from square (when distinct from the to
square), touches no square besides from, to and the castling rook
squares, and relocates the corresponding corner rook exactly when the
moved piece is the matching king making one of the four castling moves. -/
theorem applyUciMove_spec (b : Board) (uci : String) (c0 c1 c2 c3 : Char) (rest : List Char)
    (fr fc tr tc : Fin 8) (piece : Char)
    (hdata : uci.data = c0 :: c1 :: c2 :: c3 :: rest)
    (hfrom : squareToCoords [c0, c1] = some (fr, fc))
    (hto : squareToCoords [c2, c3] = some (tr, tc))
    (hpiece : b fr fc = some piece) :
    applyUciMove b uci tr tc =
      some (match rest.head? with
            | some p => if piece.toUpper = piece then p.toUpper else p.toLower
            | none => piece) ∧
    (¬(fr = tr ∧ fc = tc) → applyUciMove b uci fr fc = none) ∧
    (∀ r c : Fin 8, ¬(r = fr ∧ c = fc) → ¬(r = tr ∧ c = tc) →
      (r, c) ∉ castleRookSquares piece [c0, c1] [c2, c3] →
      applyUciMove b uci r c = b r c) ∧
    (piece = 'K' → [c0, c1] = ['e', '1'] → [c2, c3] = ['g', '1'] →
      applyUciMove b uci 7 5 = b 7 7 ∧ applyUciMove b uci 7 7 = none) ∧
    (piece = 'K' → [c0, c1] = ['e', '1'] → [c2, c3] = ['c', '1'] →
      applyUciMove b uci 7 3 = b 7 0 ∧ applyUciMove b uci 7 0 = none) ∧
    (piece = 'k' → [c0, c1] = ['e', '8'] → [c2, c3] = ['g', '8'] →
      applyUciMove b uci 0 5 = b 0 7 ∧ applyUciMove b uci 0 7 = none) ∧
    (piece = 'k' → [c0, c1] = ['e', '8'] → [c2, c3] = ['c', '8'] →
      applyUciMove b uci 0 3 = b 0 0 ∧ applyUciMove b uci 0 0 = none) := by
  rw [applyUciMove_eq b uci c0 c1 c2 c3 rest fr fc tr tc piece hdata hfrom hto hpiece]
  refine ⟨setSq_self _ _ _ _, ?_, ?_, ?_, ?_, ?_, ?_⟩
  · intro hne
    rw [setSq_other _ _ _ _ _ _ hne, applyCastling_from _ _ _ _ _ _ _ hfrom,
      setSq_self]
  · intro r c hrf hrt hmem
    rw [setSq_other _ _ _ _ _ _ hrt, applyCastling_not_mem _ _ _ _ _ _ hmem,
      setSq_other _ _ _ _ _ _ hrf]
  · intro hp hf ht
    obtain ⟨hfr, hfc⟩ := coords_eq ['e', '1'] 7 4 fr fc (by decide) (hf ▸ hfrom)
    obtain ⟨htr, htc⟩ := coords_eq ['g', '1'] 7 6 tr tc (by decide) (ht ▸ hto)
    subst hfr; subst hfc; subst htr; subst htc
    rw [hp, hf, ht]
    have hfire := applyCastling_eq (setSq b 7 4 none) 'K' ['e', '1'] ['g', '1']
    rw [if_pos ⟨rfl, rfl, rfl⟩] at hfire
    constructor
    · rw [setSq_other _ _ _ _ _ _ (by decide), hfire,
        setSq_other _ _ _ _ _ _ (by decide), setSq_self,
        setSq_other _ _ _ _ _ _ (by decide)]
    · rw [setSq_other _ _ _ _ _ _ (by decide), hfire, setSq_self]
  · intro hp hf ht
    obtain ⟨hfr, hfc⟩ := coords_eq ['e', '1'] 7 4 fr fc (by decide) (hf ▸ hfrom)
    obtain ⟨htr, htc⟩ := coords_eq ['c', '1'] 7 2 tr tc (by decide) (ht ▸ hto)
    subst hfr; subst hfc; subst htr; subst htc
    rw [hp, hf, ht]
    have hfire := applyCastling_eq (setSq b 7 4 none) 'K' ['e', '1'] ['c', '1']
    rw [if_neg (by decide), if_pos ⟨rfl, rfl, rfl⟩] at hfire
    constructor
    · rw [setSq_other _ _ _ _ _ _ (by decide), hfire,
        setSq_other _ _ _ _ _ _ (by decide), setSq_self,
        setSq_other _ _ _ _ _ _ (by decide)]
    · rw [setSq_other _ _ _ _ _ _ (by decide), hfire, setSq_self]
  · intro hp hf ht
    obtain ⟨hfr, hfc⟩ := coords_eq ['e', '8'] 0 4 fr fc (by decide) (hf ▸ hfrom)
    obtain ⟨htr, htc⟩ := coords_eq ['g', '8'] 0 6 tr tc (by decide) (ht ▸ hto)
    subst hfr; subst hfc; subst htr; subst htc
    rw [hp, hf, ht]
    have hfire := applyCastling_eq (setSq b 0 4 none) 'k' ['e', '8'] ['g', '8']
    rw [if_neg (by decide), if_neg (by decide), if_pos ⟨rfl, rfl, rfl⟩] at hfire
    constructor
    · rw [setSq_other _ _ _ _ _ _ (by decide), hfire,
        setSq_other _ _ _ _ _ _ (by decide), setSq_self,
        setSq_other _ _ _ _ _ _ (by decide)]
    · rw [setSq_other _ _ _ _ _ _ (by decide), hfire, setSq_self]
  · intro hp hf ht
    obtain ⟨hfr, hfc⟩ := coords_eq ['e', '8'] 0 4 fr fc (by decide) (hf ▸ hfrom)
    obtain ⟨htr, htc⟩ := coords_eq ['c', '8'] 0 2 tr tc (by decide) (ht ▸ hto)
    subst hfr; subst hfc; subst htr; subst htc
    rw [hp, hf, ht]
    have hfire := applyCastling_eq (setSq b 0 4 none) 'k' ['e', '8'] ['c', '8']
    rw [if_neg (by decide), if_neg (by decide), if_neg (by decide),
      if_pos ⟨rfl, rfl, rfl⟩] at hfire
    constructor
    · rw [setSq_other _ _ _ _ _ _ (by decide), hfire,
        setSq_other _ _ _ _ _ _ (by decide), setSq_self,
        setSq_other _ _ _ _ _ _ (by decide)]
    · rw [setSq_other _ _ _ _ _ _ (by decide), hfire, setSq_self]

/-- Witness for the amended C5: e2e4 on the start board puts the pawn on
e4, clears e2 and leaves an untouched corner square unchanged. -/
theorem applyUciMove_spec_witness :
    applyUciMove createStartBoard "e2e4" 4 4 = some 'P' ∧
    applyUciMove createStartBoard "e2e4" 6 4 = none ∧
    applyUciMove createStartBoard "e2e4" 0 0 = createStartBoard 0 0 := by
  have h := applyUciMove_spec createStartBoard "e2e4" 'e' '2' 'e' '4' [] 6 4 4 4 'P'
    (by decide) (by decide) (by decide) (by decide)
  exact ⟨h.1, h.2.1 (by decide), h.2.2.1 0 0 (by decide) (by decide) (by decide)⟩

/-- Unfolding of an empty run. -/
theorem simRun_nil (s : SimState) : simRun s [] = (s, []) := rfl

/-- The events of a run are the events of the first firing followed by
the events of the rest. -/
theorem simRun_cons (s : SimState) (t : Tick) (ts : List Tick) :
    (simRun s (t :: ts)).2 = (simStep s t).2.toList ++ (simRun (simStep s t).1 ts).2 := rfl

/-- Both timers observe the closed flag first: a closed simulator never
steps again. -/
theorem simStep_closed (s : SimState) (t : Tick) (h : s.closed = true) :
    simStep s t = (s, none) := by
  cases t <;> simp [simStep, clockTick, moveTick, h]

/-- A closed simulator emits nothing, over any interleaving. -/
theorem simRun_closed (s : SimState) (ticks : List Tick) (h : s.closed = true) :
    simRun s ticks = (s, []) := by
  induction ticks with
  | nil => rfl
  | cons t ts ih =>
    have : simRun s (t :: ts) =
        ((simRun (simStep s t).1 ts).1, (simStep s t).2.toList ++ (simRun (simStep s t).1 ts).2) :=
      rfl
    rw [this, simStep_closed s t h, ih]
    rfl

/-- Generalized C6 invariant: from an open state that has played
`moveIndex` of the scripted moves, any run emits at most one `Result`;
a `Result` is preceded by exactly the remaining scripted moves and
followed by nothing; and once the move timer fires at least one more
time than there are remaining scripted moves, the `Result` is emitted. -/
theorem simRun_result_spec (ticks : List Tick) : ∀ s : SimState,
    s.closed = false → s.moveIndex ≤ mockMoves.length →
    countResults (simRun s ticks).2 ≤ 1 ∧
    (∀ pre e post, (simRun s ticks).2 = pre ++ e :: post → isResultEv e = true →
      countMovesEv pre = mockMoves.length - s.moveIndex ∧ post = []) ∧
    (mockMoves.length - s.moveIndex + 1 ≤ countMoveTicks ticks →
      countResults (simRun s ticks).2 = 1) := by
  induction ticks with
  | nil =>
    intro s _ _
    refine ⟨by simp [simRun_nil, countResults], ?_, ?_⟩
    · intro pre e post hsplit _
      rw [simRun_nil] at hsplit
      exact absurd hsplit.symm (by simp)
    · intro hcnt
      rw [show countMoveTicks ([] : List Tick) = 0 from rfl] at hcnt
      exact absurd hcnt (by omega)
  | cons t ts ih =>
    intro s hopen hidx
    cases t with
    | clock =>
      have hstep : simStep s Tick.clock =
          ({ s with whiteMs := max 0 (s.whiteMs - 200), blackMs := max 0 (s.blackMs - 200) },
           some (SimEvent.clock (max 0 (s.whiteMs - 200)) (max 0 (s.blackMs - 200)))) := by
        simp [simStep, clockTick, hopen]
      obtain ⟨ih1, ih2, ih3⟩ := ih
        { s with whiteMs := max 0 (s.whiteMs - 200), blackMs := max 0 (s.blackMs - 200) }
        hopen hidx
      rw [simRun_cons, hstep] at *
      refine ⟨?_, ?_, ?_⟩
      · simpa [countResults] using ih1
      · intro pre e post hsplit hres
        cases pre with
        | nil =>
          simp only [Option.toList_some, List.singleton_append, List.nil_append,
            List.cons.injEq] at hsplit
          rw [← hsplit.1] at hres
          simp [isResultEv] at hres
        | cons a pre' =>
          simp only [Option.toList_some, List.singleton_append, List.cons_append,
            List.cons.injEq] at hsplit
          obtain ⟨hm, hp⟩ := ih2 pre' e post hsplit.2 hres
          rw [← hsplit.1]
          refine ⟨?_, hp⟩
          simpa [countMovesEv, isMoveEv] using hm
      · intro hcnt
        have hc : mockMoves.length - s.moveIndex + 1 ≤ countMoveTicks ts := by
          have he : countMoveTicks (Tick.clock :: ts) = countMoveTicks ts := by
            simp [countMoveTicks]
          omega
        simpa [countResults] using ih3 hc
    | move =>
      by_cases hscript : s.moveIndex < mockMoves.length
      · have hsome : mockMoves[s.moveIndex]? = some mockMoves[s.moveIndex] :=
          List.getElem?_eq_getElem hscript
        have hstep : simStep s Tick.move = moveApply s (mockMoves[s.moveIndex]) := by
          simp [simStep, moveTick, hopen, hsome]
        have hap1 : (moveApply s (mockMoves[s.moveIndex])).1.closed = false := hopen
        have hap2 : (moveApply s (mockMoves[s.moveIndex])).1.moveIndex = s.moveIndex + 1 := rfl
        obtain ⟨ih1, ih2, ih3⟩ := ih (moveApply s (mockMoves[s.moveIndex])).1 hap1
          (by rw [hap2]; omega)
        rw [simRun_cons, hstep]
        have hev : (moveApply s (mockMoves[s.moveIndex])).2.toList =
            [(moveApply s (mockMoves[s.moveIndex])).2.get (by rfl)] := rfl
        refine ⟨?_, ?_, ?_⟩
        · have : countResults ((moveApply s (mockMoves[s.moveIndex])).2.toList ++
              (simRun (moveApply s (mockMoves[s.moveIndex])).1 ts).2) =
              countResults (simRun (moveApply s (mockMoves[s.moveIndex])).1 ts).2 := by
            simp [moveApply, countResults, isResultEv]
          rw [this]
          exact ih1
        · intro pre e post hsplit hres
          rw [show (moveApply s (mockMoves[s.moveIndex])).2.toList =
              [SimEvent.move (s.moveIndex + 1) (mockMoves[s.moveIndex]).1
                (mockMoves[s.moveIndex]).2
                (boardToPlacement (applyUciMove s.board (mockMoves[s.moveIndex]).1) ++ " " ++
                  (if s.sideToMove = 'w' then 'b' else 'w').toString ++ " - - 0 1")
                (String.intercalate " "
                  (if s.moveIndex % 2 = 0 then
                    s.pgnMoves ++ [toString (s.moveIndex / 2 + 1) ++ ". " ++
                      (mockMoves[s.moveIndex]).2]
                  else
                    s.pgnMoves.dropLast ++
                      [s.pgnMoves.getLastD "" ++ " " ++ (mockMoves[s.moveIndex]).2]))] from rfl]
            at hsplit
          cases pre with
          | nil =>
            simp only [List.singleton_append, List.nil_append, List.cons.injEq] at hsplit
            rw [← hsplit.1] at hres
            simp [isResultEv] at hres
          | cons a pre' =>
            simp only [List.singleton_append, List.cons_append, List.cons.injEq] at hsplit
            obtain ⟨hm, hp⟩ := ih2 pre' e post hsplit.2 hres
            rw [hap2] at hm
            rw [← hsplit.1]
            refine ⟨?_, hp⟩
            have hcm : countMovesEv (SimEvent.move (s.moveIndex + 1) (mockMoves[s.moveIndex]).1
                (mockMoves[s.moveIndex]).2
                (boardToPlacement (applyUciMove s.board (mockMoves[s.moveIndex]).1) ++ " " ++
                  (if s.sideToMove = 'w' then 'b' else 'w').toString ++ " - - 0 1")
                (String.intercalate " "
                  (if s.moveIndex % 2 = 0 then
                    s.pgnMoves ++ [toString (s.moveIndex / 2 + 1) ++ ". " ++
                      (mockMoves[s.moveIndex]).2]
                  else
                    s.pgnMoves.dropLast ++
                      [s.pgnMoves.getLastD "" ++ " " ++ (mockMoves[s.moveIndex]).2])) :: pre') =
                countMovesEv pre' + 1 := by
              simp [countMovesEv, isMoveEv]
            rw [hcm, hm]
            omega
        · intro hcnt
          have hcnt' : mockMoves.length -
              (moveApply s (mockMoves[s.moveIndex])).1.moveIndex + 1 ≤ countMoveTicks ts := by
            rw [hap2]
            have he : countMoveTicks (Tick.move :: ts) = countMoveTicks ts + 1 := by
              simp [countMoveTicks]
            omega
          have := ih3 hcnt'
          have hce : countResults ((moveApply s (mockMoves[s.moveIndex])).2.toList ++
              (simRun (moveApply s (mockMoves[s.moveIndex])).1 ts).2) =
              countResults (simRun (moveApply s (mockMoves[s.moveIndex])).1 ts).2 := by
            simp [moveApply, countResults, isResultEv]
          rw [hce]
          exact this
      · have hidx20 : s.moveIndex = mockMoves.length := by omega
        have hnone : mockMoves[s.moveIndex]? = none := List.getElem?_eq_none (by omega)
        have hstep : simStep s Tick.move =
            ({ s with closed := true }, some (SimEvent.result "1-0" "checkmate")) := by
          simp [simStep, moveTick, hopen, hnone]
        have hrest : simRun ({ s with closed := true } : SimState) ts =
            ({ s with closed := true }, []) := simRun_closed _ _ rfl
        rw [simRun_cons, hstep]
        simp only [Option.toList_some, hrest, List.singleton_append, List.append_nil]
        refine ⟨by simp [countResults, isResultEv], ?_, ?_⟩
        · intro pre e post hsplit _
          cases pre with
          | nil =>
            simp only [List.nil_append, List.cons.injEq] at hsplit
            refine ⟨by simp [countMovesEv, hidx20], hsplit.2.symm⟩
          | cons a pre' =>
            simp only [List.cons_append, List.cons.injEq] at hsplit
            exact absurd hsplit.2.symm (by simp)
        · intro _
          simp [countResults, isResultEv]

/-- C6: over every interleaving of the two timers, a simulator instance
emits at most one `Result`; any `Result` is preceded by all 20 scripted
`Move` events and is the final event of the trace (both timers are
stopped for good, so nothing follows it); and as soon as the move timer
has fired once more than the script length, exactly one `Result` has
been emitted. -/
theorem sim_single_result_terminal (initialMs : Int) (ticks : List Tick) :
    countResults (simTrace initialMs ticks) ≤ 1 ∧
    (∀ pre e post, simTrace initialMs ticks = pre ++ e :: post → isResultEv e = true →
      countMovesEv pre = mockMoves.length ∧ post = []) ∧
    (mockMoves.length + 1 ≤ countMoveTicks ticks →
      countResults (simTrace initialMs ticks) = 1) := by
  obtain ⟨h1, h2, h3⟩ := simRun_result_spec ticks (initSimState initialMs) rfl
    (Nat.zero_le _)
  have htr : simTrace initialMs ticks =
      SimEvent.opened :: SimEvent.matchStarted "mock" startFen ::
        (simRun (initSimState initialMs) ticks).2 := rfl
  have hcount : countResults (simTrace initialMs ticks) =
      countResults (simRun (initSimState initialMs) ticks).2 := by
    rw [htr]
    simp [countResults, isResultEv]
  refine ⟨?_, ?_, ?_⟩
  · rw [hcount]
    exact h1
  · intro pre e post hsplit hres
    rw [htr] at hsplit
    cases pre with
    | nil =>
      simp only [List.nil_append, List.cons.injEq] at hsplit
      rw [← hsplit.1] at hres
      simp [isResultEv] at hres
    | cons a pre' =>
      cases pre' with
      | nil =>
        simp only [List.cons_append, List.nil_append, List.cons.injEq] at hsplit
        rw [← hsplit.2.1] at hres
        simp [isResultEv] at hres
      | cons b pre'' =>
        simp only [List.cons_append, List.cons.injEq] at hsplit
        obtain ⟨hm, hp⟩ := h2 pre'' e post hsplit.2.2 hres
        rw [← hsplit.1, ← hsplit.2.1]
        refine ⟨?_, hp⟩
        have hce : countMovesEv (SimEvent.opened ::
            SimEvent.matchStarted "mock" startFen :: pre'') = countMovesEv pre'' := by
          simp [countMovesEv, isMoveEv]
        rw [hce, hm]
        rfl
  · intro hcnt
    rw [hcount]
    exact h3 (by simpa [initSimState] using hcnt)

/-- Witness for C6: with 21 move-timer firings and no clock firings,
exactly one `Result` is emitted. -/
theorem sim_single_result_terminal_witness :
    countResults (simTrace 300000 (List.replicate 21 Tick.move)) = 1 :=
  (sim_single_result_terminal 300000 (List.replicate 21 Tick.move)).2.2 (by decide)

/-- Clock-value extraction distributes over concatenation. -/
theorem clockWhites_append (a b : List SimEvent) :
    clockWhites (a ++ b) = clockWhites a ++ clockWhites b :=
  List.filterMap_append a b _

/-- Black-value extraction distributes over concatenation. -/
theorem clockBlacks_append (a b : List SimEvent) :
    clockBlacks (a ++ b) = clockBlacks a ++ clockBlacks b :=
  List.filterMap_append a b _

/-- A clock event contributes its white value. -/
theorem clockWhites_cons_clock (w bl : Int) (l : List SimEvent) :
    clockWhites (SimEvent.clock w bl :: l) = w :: clockWhites l := rfl

/-- A clock event contributes its black value. -/
theorem clockBlacks_cons_clock (w bl : Int) (l : List SimEvent) :
    clockBlacks (SimEvent.clock w bl :: l) = bl :: clockBlacks l := rfl

/-- Generalized C7 invariant: from a state with equal white and black
remaining times, the black clock values of any run equal the white
ones, and the white values form a chain where each emitted value is the
previous one minus 200 clamped at 0, anchored at the current remaining
time. -/
theorem simRun_clock_spec (ticks : List Tick) : ∀ s : SimState,
    s.whiteMs = s.blackMs →
    clockBlacks (simRun s ticks).2 = clockWhites (simRun s ticks).2 ∧
    List.Chain (fun a b => b = max 0 (a - 200)) s.whiteMs
      (clockWhites (simRun s ticks).2) := by
  induction ticks with
  | nil =>
    intro s _
    exact ⟨rfl, List.Chain.nil⟩
  | cons t ts ih =>
    intro s hwb
    by_cases hcl : s.closed = true
    · rw [simRun_closed s (t :: ts) hcl]
      exact ⟨rfl, List.Chain.nil⟩
    · have hopen : s.closed = false := by
        cases hb : s.closed
        · rfl
        · exact absurd hb hcl
      cases t with
      | clock =>
        have hstep : simStep s Tick.clock =
            ({ s with whiteMs := max 0 (s.whiteMs - 200), blackMs := max 0 (s.blackMs - 200) },
             some (SimEvent.clock (max 0 (s.whiteMs - 200)) (max 0 (s.blackMs - 200)))) := by
          simp [simStep, clockTick, hopen]
        obtain ⟨ih1, ih2⟩ := ih
          { s with whiteMs := max 0 (s.whiteMs - 200), blackMs := max 0 (s.blackMs - 200) }
          (by simp [hwb])
        rw [simRun_cons, hstep]
        dsimp only
        rw [Option.toList_some, List.singleton_append, clockWhites_cons_clock,
          clockBlacks_cons_clock]
        constructor
        · rw [ih1, hwb]
        · exact List.chain_cons.mpr ⟨rfl, ih2⟩
      | move =>
        by_cases hscript : s.moveIndex < mockMoves.length
        · have hsome : mockMoves[s.moveIndex]? = some mockMoves[s.moveIndex] :=
            List.getElem?_eq_getElem hscript
          have hstep : simStep s Tick.move = moveApply s (mockMoves[s.moveIndex]) := by
            simp [simStep, moveTick, hopen, hsome]
          obtain ⟨ih1, ih2⟩ := ih (moveApply s (mockMoves[s.moveIndex])).1 hwb
          rw [simRun_cons, hstep, clockWhites_append, clockBlacks_append]
          have hwl : clockWhites (moveApply s (mockMoves[s.moveIndex])).2.toList = [] := rfl
          have hbl : clockBlacks (moveApply s (mockMoves[s.moveIndex])).2.toList = [] := rfl
          rw [hwl, hbl, List.nil_append, List.nil_append]
          exact ⟨ih1, ih2⟩
        · have hnone : mockMoves[s.moveIndex]? = none := List.getElem?_eq_none (by omega)
          have hstep : simStep s Tick.move =
              ({ s with closed := true }, some (SimEvent.result "1-0" "checkmate")) := by
            simp [simStep, moveTick, hopen, hnone]
          have hrest : simRun ({ s with closed := true } : SimState) ts =
              ({ s with closed := true }, []) := simRun_closed _ _ rfl
          rw [simRun_cons, hstep]
          dsimp only
          rw [hrest]
          exact ⟨rfl, List.Chain.nil⟩

/-- Values emitted along the clamped-decrement chain are nonnegative. -/
theorem chain_clamp_nonneg : ∀ (l : List Int) (a : Int),
    List.Chain (fun x y => y = max 0 (x - 200)) a l → ∀ v ∈ l, 0 ≤ v := by
  intro l
  induction l with
  | nil =>
    intro a _ v hv
    simp at hv
  | cons x xs ih =>
    intro a hch v hv
    obtain ⟨hab, hrest⟩ := List.chain_cons.mp hch
    rcases List.mem_cons.mp hv with rfl | hv'
    · rw [hab]
      exact le_max_left 0 _
    · exact ih x hrest v hv'

/-- The clamped-decrement chain is non-increasing. -/
theorem chain_clamp_mono : ∀ (l : List Int) (a : Int),
    List.Chain (fun x y => y = max 0 (x - 200)) a l →
    List.Chain' (fun x y => y ≤ x) l := by
  intro l
  induction l with
  | nil =>
    intro a _
    exact List.chain'_nil
  | cons x xs ih =>
    intro a hch
    obtain ⟨hab, hrest⟩ := List.chain_cons.mp hch
    cases xs with
    | nil => simp
    | cons y ys =>
      obtain ⟨hxy, _⟩ := List.chain_cons.mp hrest
      refine List.chain'_cons.mpr ⟨?_, ih x hrest⟩
      rw [hxy, hab]
      exact max_le (le_max_left 0 _) (sub_le_self _ (by norm_num))

/-- C7: over every interleaving and every initial clock value, the
simulator's black clock values equal the white ones; each emitted value
is the previous one minus 200 ms clamped at 0 (anchored at the initial
value); and the emitted sequence is nonnegative and non-increasing. -/
theorem sim_clock_monotone (initialMs : Int) (ticks : List Tick) :
    clockBlacks (simTrace initialMs ticks) = clockWhites (simTrace initialMs ticks) ∧
    List.Chain (fun a b => b = max 0 (a - 200)) initialMs
      (clockWhites (simTrace initialMs ticks)) ∧
    (∀ v ∈ clockWhites (simTrace initialMs ticks), 0 ≤ v) ∧
    List.Chain' (fun a b => b ≤ a) (clockWhites (simTrace initialMs ticks)) := by
  obtain ⟨h1, h2⟩ := simRun_clock_spec ticks (initSimState initialMs) rfl
  have hW : clockWhites (simTrace initialMs ticks) =
      clockWhites (simRun (initSimState initialMs) ticks).2 := rfl
  have hB : clockBlacks (simTrace initialMs ticks) =
      clockBlacks (simRun (initSimState initialMs) ticks).2 := rfl
  rw [hW, hB]
  exact ⟨h1, h2, chain_clamp_nonneg _ _ h2, chain_clamp_mono _ _ h2⟩

/-- Witness for C7: two clock firings from 1000 ms emit 800 then 600 on
both sides. -/
theorem sim_clock_monotone_witness :
    clockBlacks (simTrace 1000 [Tick.clock, Tick.clock]) =
      clockWhites (simTrace 1000 [Tick.clock, Tick.clock]) ∧
    clockWhites (simTrace 1000 [Tick.clock, Tick.clock]) = [800, 600] :=
  ⟨(sim_clock_monotone 1000 [Tick.clock, Tick.clock]).1, by decide⟩
